import Mathlib

/-!
Verification of the extraction-and-matching core of kvartersmenyn-cli.

Go strings are modeled as lists of Unicode code points (`GoStr`).  Byte-level
operations of the source (substring containment, marker indices) coincide with
rune-level operations on valid UTF-8 text because UTF-8 is self-synchronizing:
a byte-level match of a valid needle always starts and ends on rune boundaries,
and marker offsets used for slicing fall on those boundaries.  Go byte length
is recovered explicitly by `goLen`.

External library functions used by the source are modeled as follows:
- the fuzzysearch distance function is an abstract oracle (`Engine`), with
  `none` standing for the call panicking;
- the Go unicode tables (IsSpace, IsLetter, IsDigit, ToLower, ToUpper) are
  modeled exactly on the ASCII and Latin-1 ranges; code points above U+00FF are
  treated as non-letters left unchanged by case mapping;
- goquery / x-net-html are modeled by an explicit document tree (`HNode`) with
  a small CSS descendant-selector engine for the selectors the source uses.
-/

set_option maxHeartbeats 1000000

namespace KvCli

/-- Go strings as lists of Unicode code points (runes). -/
abbrev GoStr := List Nat

/-- Code-point list of a Lean string literal. -/
def gostr (s : String) : GoStr := s.data.map (fun c => c.toNat)

/-- Model of Go unicode.IsSpace: the White_Space code points. -/
def isSpaceRune (c : Nat) : Bool :=
  decide (c = 9 ∨ c = 10 ∨ c = 11 ∨ c = 12 ∨ c = 13 ∨ c = 32 ∨ c = 133 ∨ c = 160 ∨
    c = 5760 ∨ (8192 ≤ c ∧ c ≤ 8202) ∨ c = 8232 ∨ c = 8233 ∨ c = 8239 ∨ c = 8287 ∨
    c = 12288)

/-- Model of Go unicode.IsLetter on the ASCII and Latin-1 ranges (code points
above U+00FF are conservatively classified as non-letters). -/
def goIsLetterRune (c : Nat) : Bool :=
  decide ((65 ≤ c ∧ c ≤ 90) ∨ (97 ≤ c ∧ c ≤ 122) ∨ c = 170 ∨ c = 181 ∨ c = 186 ∨
    (192 ≤ c ∧ c ≤ 255 ∧ c ≠ 215 ∧ c ≠ 247))

/-- Model of Go unicode.IsDigit (category Nd; ASCII digits in the modeled range). -/
def goIsDigitRune (c : Nat) : Bool :=
  decide (48 ≤ c ∧ c ≤ 57)

/-- Model of Go unicode.ToLower on the ASCII and Latin-1 ranges (identity above
U+00FF, where the model classifies nothing as a letter). -/
def goToLowerRune (c : Nat) : Nat :=
  if 65 ≤ c ∧ c ≤ 90 then c + 32
  else if 192 ≤ c ∧ c ≤ 222 ∧ c ≠ 215 then c + 32
  else c

/-- Model of Go unicode.ToUpper on the ASCII and Latin-1 ranges. -/
def goToUpperRune (c : Nat) : Nat :=
  if 97 ≤ c ∧ c ≤ 122 then c - 32
  else if 224 ≤ c ∧ c ≤ 254 ∧ c ≠ 247 then c - 32
  else if c = 255 then 376
  else if c = 181 then 924
  else c

/-- Model of strings.ToLower: unicode.ToLower applied to every rune. -/
def goStrToLower (s : GoStr) : GoStr := s.map goToLowerRune

/-- Model of strings.ToUpper: unicode.ToUpper applied to every rune. -/
def goStrToUpper (s : GoStr) : GoStr := s.map goToUpperRune

/-- Model of strings.TrimSpace: drop leading and trailing White_Space runes. -/
def goTrimSpace (s : GoStr) : GoStr :=
  ((s.dropWhile isSpaceRune).reverse.dropWhile isSpaceRune).reverse

/-- Model of strings.TrimPrefix: drop `pre` when it heads `s`. -/
def goStripLeading (pre s : GoStr) : GoStr :=
  if pre.isPrefixOf s then s.drop pre.length else s

/-- Model of strings.Fields: maximal runs of non-whitespace runes; `acc` holds
the current run reversed. -/
def goFieldsAux : GoStr → GoStr → List GoStr
  | acc, [] => if acc.isEmpty then [] else [acc.reverse]
  | acc, c :: s =>
    if isSpaceRune c then
      (if acc.isEmpty then [] else [acc.reverse]) ++ goFieldsAux [] s
    else
      goFieldsAux (c :: acc) s

/-- Model of strings.Fields. -/
def goFields (s : GoStr) : List GoStr := goFieldsAux [] s

/-- Model of strings.Join(fields, " "). -/
def goJoinSpace : List GoStr → GoStr
  | [] => []
  | [f] => f
  | f :: g :: t => f ++ 32 :: goJoinSpace (g :: t)

/-- Model of strings.ReplaceAll(s, nbsp, " "). -/
def replaceNbsp (s : GoStr) : GoStr := s.map (fun c => if c = 160 then 32 else c)

/-- normalizeSpaces from the extractor: replace non-breaking spaces by plain
spaces, then join the whitespace-separated fields with single spaces. -/
def normalizeSpaces (s : GoStr) : GoStr := goJoinSpace (goFields (replaceNbsp s))

/-- Model of strings.Contains: substring containment (rune-level, which agrees
with Go byte-level containment on valid UTF-8). -/
def goContains (hay needle : GoStr) : Bool :=
  match hay with
  | [] => needle.isEmpty
  | c :: t => needle.isPrefixOf (c :: t) || goContains t needle

/-- Model of strings.Index: first rune index where `needle` occurs in `hay`,
`none` when absent (Go returns -1).  On valid UTF-8 the byte index used by the
source for slicing falls on the same rune boundary. -/
def goIndexOf (hay needle : GoStr) : Option Nat :=
  match hay with
  | [] => if needle.isEmpty then some 0 else none
  | c :: t =>
    if needle.isPrefixOf (c :: t) then some 0
    else (goIndexOf t needle).map (fun i => i + 1)

/-- Model of strings.Split(s, newline). -/
def goSplitNL : GoStr → List GoStr
  | [] => [[]]
  | c :: s =>
    if c = 10 then [] :: goSplitNL s
    else
      match goSplitNL s with
      | [] => [[c]]
      | h :: t => (c :: h) :: t

/-- UTF-8 byte length of one rune. -/
def utf8RuneLen (c : Nat) : Nat :=
  if c < 128 then 1 else if c < 2048 then 2 else if c < 65536 then 3 else 4

/-- Go len() of a string: its UTF-8 byte length. -/
def goLen (s : GoStr) : Nat := (s.map utf8RuneLen).sum

/-- Model of strings.ToValidUTF8(s, ""): identity, since rune sequences are
valid by construction in this model. -/
def goToValidUTF8 (s : GoStr) : GoStr := s

/-- Model of fuzzy.RankMatchFold from the fuzzysearch library: an abstract
approximate-distance oracle; `none` models the call panicking. -/
abbrev Engine := GoStr → GoStr → Option Int

/-- normalizeToken from main.go: keep only Unicode letters and digits,
lower-cased (after discarding invalid UTF-8, which the model makes identity). -/
def normalizeToken (s : GoStr) : GoStr :=
  ((goToValidUTF8 s).filter (fun r => goIsLetterRune r || goIsDigitRune r)).map goToLowerRune

/-- fuzzThreshold from main.go: length-scaled distance bound. -/
def fuzzThreshold (length : Nat) : Int :=
  if length ≤ 3 then 1
  else if length ≤ 6 then 2
  else 3

/-- safeRankMatchFold from main.go: run the fuzzy matcher, recovering from a
panic; on recovery the zero values (0, false) are returned. -/
def safeRankMatchFold (e : Engine) (query text : GoStr) : Int × Bool :=
  match e (goToValidUTF8 query) (goToValidUTF8 text) with
  | some dist => (dist, true)
  | none => (0, false)

/-- matchesName from main.go: raw containment, then normalized containment,
then the bounded approximate-distance tier. -/
def matchesName (e : Engine) (name queryLower : GoStr) (maxDistance : Int) : Bool :=
  let lowerName := goStrToLower name
  if goContains lowerName queryLower then true
  else
    let normName := normalizeToken lowerName
    let normQuery := normalizeToken queryLower
    if !normQuery.isEmpty && goContains normName normQuery then true
    else
      match safeRankMatchFold e normQuery normName with
      | (dist, true) => decide (0 ≤ dist ∧ dist ≤ maxDistance)
      | (_, false) => false

/-- matchesText from main.go: the same three tiers against an arbitrary text
field, with the normalized query passed in by the caller. -/
def matchesText (e : Engine) (text rawQuery normQuery : GoStr) (maxDistance : Int) : Bool :=
  if goContains text rawQuery then true
  else
    let normText := normalizeToken text
    if !normQuery.isEmpty && goContains normText normQuery then true
    else if normQuery.isEmpty then false
    else
      match safeRankMatchFold e normQuery normText with
      | (dist, true) => decide (0 ≤ dist ∧ dist ≤ maxDistance)
      | (_, false) => false

/-- Restaurant record from the extractor. -/
structure Restaurant where
  Name : GoStr
  Price : GoStr
  Address : GoStr
  Phone : GoStr
  Link : GoStr
  Menu : List GoStr
deriving DecidableEq

/-- filterRestaurants from main.go: name filter; the threshold is computed
from the raw query length. -/
def filterRestaurants (e : Engine) (restaurants : List Restaurant) (query : GoStr) :
    List Restaurant :=
  let queryLower := goStrToLower query
  let maxDistance := fuzzThreshold (goLen query)
  restaurants.filter (fun r => matchesName e r.Name queryLower maxDistance)

/-- filterByMenu from main.go: menu filter; the threshold is computed from the
normalized query length. -/
def filterByMenu (e : Engine) (restaurants : List Restaurant) (query : GoStr) :
    List Restaurant :=
  let queryLower := goStrToLower query
  let normQuery := normalizeToken queryLower
  let maxDistance := fuzzThreshold (goLen normQuery)
  restaurants.filter (fun r =>
    matchesText e (goStrToLower (goJoinSpace r.Menu)) queryLower normQuery maxDistance)

/-- filterCombined from main.go: OR of a name match and a menu match, each side
evaluated only when its (trimmed, lowered) query is non-empty. -/
def filterCombined (e : Engine) (restaurants : List Restaurant)
    (nameQuery menuQuery : GoStr) : List Restaurant :=
  let nameLower := goStrToLower (goTrimSpace nameQuery)
  let menuLower := goStrToLower (goTrimSpace menuQuery)
  let normName := normalizeToken nameLower
  let normMenu := normalizeToken menuLower
  let maxName := fuzzThreshold (goLen normName)
  let maxMenu := fuzzThreshold (goLen normMenu)
  restaurants.filter (fun r =>
    (if !nameLower.isEmpty then matchesName e r.Name nameLower maxName else false) ||
    (if !menuLower.isEmpty then
      matchesText e (goStrToLower (goJoinSpace r.Menu)) menuLower normMenu maxMenu
    else false))

/-- Query resolution and filtering from main.go lines 173-188: a non-empty
combined query defaults the empty per-field queries and routes to
filterCombined; otherwise each supplied per-field filter is applied in turn. -/
def applyFilters (e : Engine) (restaurants : List Restaurant)
    (nameQ menuQ combinedQ : GoStr) : List Restaurant :=
  if combinedQ ≠ [] then
    filterCombined e restaurants
      (if nameQ = [] then combinedQ else nameQ)
      (if menuQ = [] then combinedQ else menuQ)
  else
    let rs1 := if nameQ ≠ [] then filterRestaurants e restaurants nameQ else restaurants
    if menuQ ≠ [] then filterByMenu e rs1 menuQ else rs1

/-- splitAddressAndPhone from the extractor: strip a leading "ADRESS:" label,
trim, then search for "TEL:" in the upper-cased field; the part after the
marker, whitespace-normalized, is the phone, the part before it, trimmed, is
the address. -/
def splitAddressAndPhone (line : GoStr) : GoStr × GoStr :=
  let line1 := goTrimSpace (goStripLeading (gostr ("ADRESS:")) line)
  match goIndexOf (goStrToUpper line1) (gostr ("TEL:")) with
  | some idx => (goTrimSpace (line1.take idx), normalizeSpaces (line1.drop (idx + 4)))
  | none => (line1, [])

/-- Mirror of the amended address/phone contract, written from the spec words
with the label as the source's Swedish "ADRESS:": strip that leading label
case-sensitively and trim; search case-insensitively for a "TEL:" marker (by
upper-casing the field); everything after the marker, whitespace-normalized,
becomes the phone and everything before it, trimmed, becomes the address; with
no marker the whole field is the address and the phone is empty. -/
def splitAddressAndPhoneSpec (line : GoStr) : GoStr × GoStr :=
  let body := goTrimSpace (goStripLeading (gostr ("ADRESS:")) line)
  match goIndexOf (goStrToUpper body) (gostr ("TEL:")) with
  | none => (body, [])
  | some i => (goTrimSpace (body.take i), normalizeSpaces (body.drop (i + (gostr ("TEL:")).length)))

/-- Node types of the x-net-html tree model. -/
inductive NType where
  | text
  | element
  | other
deriving DecidableEq

mutual
/-- Model of an x-net-html node: node type, data (tag name or text content),
attributes and children. -/
inductive HNode where
  | mk (ntype : NType) (data : GoStr) (attrs : List (GoStr × GoStr)) (kids : HForest)
/-- Child lists of the tree model. -/
inductive HForest where
  | nil
  | cons (n : HNode) (f : HForest)
end

def nodeNType : HNode → NType
  | .mk t _ _ _ => t

def nodeData : HNode → GoStr
  | .mk _ d _ _ => d

def nodeAttrs : HNode → List (GoStr × GoStr)
  | .mk _ _ a _ => a

def nodeKids : HNode → HForest
  | .mk _ _ _ k => k

/-- Test for a br line-break element. -/
def isBr (n : HNode) : Bool :=
  decide (nodeNType n = NType.element) && decide (nodeData n = gostr ("br"))

mutual
/-- writeNode from the extractor: write text data, turn br children into
newline separators, recurse into the other children. -/
def writeNode : HNode → GoStr
  | .mk t d _ k => (if t = NType.text then d else []) ++ writeKids k
/-- Child traversal of writeNode. -/
def writeKids : HForest → GoStr
  | .nil => []
  | .cons c f => (if isBr c then [10] else writeNode c) ++ writeKids f
end

mutual
/-- Subtree text of one node, as goquery Selection.Text concatenates it. -/
def nodeText : HNode → GoStr
  | .mk t d _ k => (if t = NType.text then d else []) ++ forestText k
/-- Subtree text of a child list. -/
def forestText : HForest → GoStr
  | .nil => []
  | .cons n f => nodeText n ++ forestText f
end

/-- goquery Selection.Text over the nodes of a selection. -/
def selectionText (ns : List HNode) : GoStr := (ns.map nodeText).flatten

/-- Attribute lookup on a node (first binding wins, as in html.Node). -/
def attrValue (n : HNode) (key : GoStr) : Option GoStr :=
  ((nodeAttrs n).find? (fun p => p.1 == key)).map (fun p => p.2)

/-- goquery Selection.Attr on the first node of a selection; empty when the
attribute is absent. -/
def selectionAttr (ns : List HNode) (key : GoStr) : GoStr :=
  match ns with
  | [] => []
  | n :: _ => (attrValue n key).getD []

/-- One compound selector: an optional tag name plus required classes. -/
structure Sel where
  tag : Option GoStr
  classes : List GoStr

/-- Class list of an element: its class attribute split on whitespace, the way
cascadia matches class selectors. -/
def classList (n : HNode) : List GoStr :=
  goFields ((attrValue n (gostr ("class"))).getD [])

/-- Compound-selector match on a single element. -/
def matchesSel (q : Sel) (n : HNode) : Bool :=
  decide (nodeNType n = NType.element) &&
  (match q.tag with
   | none => true
   | some t => decide (nodeData n = t)) &&
  q.classes.all (fun c => (classList n).contains c)

mutual
/-- Descendant-combinator CSS search: `pend` holds the selector chains whose
already-matched part ends strictly above the current node; a node is emitted
when it completes a chain, in document (preorder) order. -/
def walkNode (pend : List (List Sel)) : HNode → List HNode
  | .mk t d a k =>
    let adv := pend.filterMap (fun c =>
      match c with
      | [] => none
      | q :: rest => if matchesSel q (.mk t d a k) then some rest else none)
    (if adv.any (fun c => c.isEmpty) then [HNode.mk t d a k] else []) ++
      walkKids (pend ++ adv.filter (fun c => !c.isEmpty)) k
/-- Child traversal of the CSS search. -/
def walkKids (pend : List (List Sel)) : HForest → List HNode
  | .nil => []
  | .cons n f => walkNode pend n ++ walkKids pend f
end

/-- goquery Document.Find over a whole document. -/
def findForest (chain : List Sel) (doc : HForest) : List HNode := walkKids [chain] doc

/-- goquery Selection.Find from a single node: searches its descendants. -/
def findUnder (chain : List Sel) (n : HNode) : List HNode := walkKids [chain] (nodeKids n)

/-- Selector div.row.t_lunch identifying one restaurant block. -/
def selRow : List Sel := [⟨some (gostr ("div")), [gostr ("row"), gostr ("t_lunch")]⟩]

/-- Selector div.name h5.t_lunch a for the name/link element. -/
def selNameLink : List Sel :=
  [⟨some (gostr ("div")), [gostr ("name")]⟩, ⟨some (gostr ("h5")), [gostr ("t_lunch")]⟩,
   ⟨some (gostr ("a")), []⟩]

/-- Selector .price-rl .price for the price element. -/
def selPrice : List Sel := [⟨none, [gostr ("price-rl")]⟩, ⟨none, [gostr ("price")]⟩]

/-- Selector div.rest-menu p.t_lunch for the menu region. -/
def selMenuRegion : List Sel :=
  [⟨some (gostr ("div")), [gostr ("rest-menu")]⟩, ⟨some (gostr ("p")), [gostr ("t_lunch")]⟩]

/-- Selector .divider p for the composite address/phone field. -/
def selDividerP : List Sel := [⟨none, [gostr ("divider")]⟩, ⟨some (gostr ("p")), []⟩]

/-- textWithBreaks from the extractor: concatenated node text with br rendered
as newline, trimmed at both ends. -/
def textWithBreaks (sel : List HNode) : GoStr := goTrimSpace ((sel.map writeNode).flatten)

/-- Untrimmed concatenated menu-region text with br rendered as newline. -/
def rawTextWithBreaks (sel : List HNode) : GoStr := (sel.map writeNode).flatten

/-- extractMenuLines from the extractor: split the break-preserving text on
newlines, whitespace-normalize each line, drop empty lines. -/
def extractMenuLines (sel : List HNode) : List GoStr :=
  if sel.isEmpty then []
  else
    let text := textWithBreaks sel
    if text.isEmpty then []
    else ((goSplitNL text).map normalizeSpaces).filter (fun line => !line.isEmpty)

/-- One block of parseRestaurants: build the record, skipping the block when
the trimmed name text is empty. -/
def parseBlock (s : HNode) : Option Restaurant :=
  let name := goTrimSpace (selectionText ((findUnder selNameLink s).take 1))
  if name.isEmpty then none
  else
    let price := normalizeSpaces (selectionText ((findUnder selPrice s).take 1))
    let menuLines := extractMenuLines ((findUnder selMenuRegion s).take 1)
    let addrText := normalizeSpaces (selectionText ((findUnder selDividerP s).take 1))
    let ap := splitAddressAndPhone addrText
    let link := selectionAttr ((findUnder selNameLink s).take 1) (gostr ("href"))
    some ⟨name, price, ap.1, ap.2, link, menuLines⟩

/-- parseRestaurants from the extractor, on an already-parsed document tree. -/
def parseRestaurants (doc : HForest) : List Restaurant :=
  (findForest selRow doc).filterMap parseBlock

/-- Input to document construction: either readable bytes or a failure of the
underlying reader. -/
inductive ReaderInput where
  | bytes (bs : GoStr)
  | failure (msg : GoStr)

/-- Document tree the HTML5 algorithm builds for byte content with no markup
structure: the bytes become character data. -/
def textForest (bs : GoStr) : HForest := .cons (.mk .text bs [] .nil) .nil

/-- Model of goquery.NewDocumentFromReader: x-net-html implements the HTML5
parsing algorithm, which is total — every byte content yields a document tree
and the only error the call can return comes from the underlying reader.  The
tree shape is modeled here for content without markup elements (`textForest`);
the error behavior (success on all content, failure exactly on read failure)
is the library's behavior on all inputs. -/
def newDocumentFromReader : ReaderInput → Except GoStr HForest
  | .bytes bs => .ok (textForest bs)
  | .failure m => .error m

/-- parseRestaurants from the extractor, starting from the reader: build the
document, propagating only the reader error, then extract the records. -/
def parseRestaurantsFromReader (r : ReaderInput) : Except GoStr (List Restaurant) :=
  match newDocumentFromReader r with
  | .error e => .error e
  | .ok doc => .ok (parseRestaurants doc)

/-- Fault-free completion of an engine: a faulting (panicking) comparison is
replaced by a distance that the bounded tier rejects, i.e. the comparison
simply returns no match. -/
def sanitizeEngine (e : Engine) : Engine :=
  fun q t =>
    match e q t with
    | none => some (-1)
    | some d => some d

/-- Per-record name-side predicate of the combined filter, at the thresholds
filterCombined computes (normalized query length). -/
def combinedNameMatch (e : Engine) (q : GoStr) (r : Restaurant) : Bool :=
  matchesName e r.Name (goStrToLower q)
    (fuzzThreshold (goLen (normalizeToken (goStrToLower q))))

/-- Per-record menu-side predicate of the combined filter, at the thresholds
filterCombined computes (normalized query length). -/
def combinedMenuMatch (e : Engine) (q : GoStr) (r : Restaurant) : Bool :=
  matchesText e (goStrToLower (goJoinSpace r.Menu)) (goStrToLower q)
    (normalizeToken (goStrToLower q))
    (fuzzThreshold (goLen (normalizeToken (goStrToLower q))))

/-- Per-record name predicate of filterRestaurants (raw query length feeds the
threshold). -/
def nameOnlyMatch (e : Engine) (q : GoStr) (r : Restaurant) : Bool :=
  matchesName e r.Name (goStrToLower q) (fuzzThreshold (goLen q))

/-- Per-record menu predicate of filterByMenu (normalized query length feeds
the threshold). -/
def menuOnlyMatch (e : Engine) (q : GoStr) (r : Restaurant) : Bool :=
  matchesText e (goStrToLower (goJoinSpace r.Menu)) (goStrToLower q)
    (normalizeToken (goStrToLower q))
    (fuzzThreshold (goLen (normalizeToken (goStrToLower q))))

/-- Concrete engine for witnesses. -/
def engineZero : Engine := fun _ _ => some 0

/-- Concrete restaurant for witnesses. -/
def rPizza : Restaurant := ⟨gostr ("Pizzeria"), [], [], [], [], [gostr ("margherita")]⟩

/-- Concrete extracted restaurant of `docTest`. -/
def rTesto : Restaurant := ⟨gostr ("Testo"), [], [], [], gostr ("x.html"), []⟩

/-- Concrete one-block document for witnesses. -/
def docTest : HForest :=
  .cons (.mk .element (gostr ("div")) [(gostr ("class"), gostr ("row t_lunch"))]
    (.cons (.mk .element (gostr ("div")) [(gostr ("class"), gostr ("name"))]
      (.cons (.mk .element (gostr ("h5")) [(gostr ("class"), gostr ("t_lunch"))]
        (.cons (.mk .element (gostr ("a")) [(gostr ("href"), gostr ("x.html"))]
          (.cons (.mk .text (gostr ("Testo")) [] .nil) .nil)) .nil)) .nil)) .nil)) .nil

/-- Claim-shaped menu pipeline: split the break-preserving text on line
separators, whitespace-normalize each line independently, drop the lines that
become empty, keep the order. -/
def cleanLines (s : GoStr) : List GoStr :=
  ((goSplitNL s).map normalizeSpaces).filter (fun line => !line.isEmpty)

/-- No two adjacent runes are both plain spaces. -/
def noTwoSpaces : GoStr → Bool
  | [] => true
  | [_] => true
  | a :: b :: t => !(a == 32 && b == 32) && noTwoSpaces (b :: t)

-- ===== Theorems =====

theorem goToLowerRune_idem (n : Nat) : goToLowerRune (goToLowerRune n) = goToLowerRune n := by
  simp only [goToLowerRune]
  split_ifs <;> omega

theorem keep_goToLowerRune {n : Nat}
    (h : (goIsLetterRune n || goIsDigitRune n) = true) :
    (goIsLetterRune (goToLowerRune n) || goIsDigitRune (goToLowerRune n)) = true := by
  simp only [goIsLetterRune, goIsDigitRune, goToLowerRune, Bool.or_eq_true,
    decide_eq_true_eq] at h ⊢
  split_ifs <;> omega

theorem normalizeToken_cons (c : Nat) (s : GoStr) :
    normalizeToken (c :: s) =
      (if goIsLetterRune c || goIsDigitRune c then [goToLowerRune c] else []) ++
        normalizeToken s := by
  simp only [normalizeToken, goToValidUTF8, List.filter_cons]
  split <;> simp

/-- C5: the normalizer is idempotent — for every input string,
normalize(normalize(x)) = normalize(x), where normalize lower-cases and keeps
only letters and digits. -/
theorem normalizeToken_idempotent (s : GoStr) :
    normalizeToken (normalizeToken s) = normalizeToken s := by
  induction s with
  | nil => rfl
  | cons c s ih =>
    by_cases h : (goIsLetterRune c || goIsDigitRune c) = true
    · have h2 := keep_goToLowerRune h
      simp only [normalizeToken_cons, h, if_true, List.singleton_append, h2,
        goToLowerRune_idem, ih]
    · simp [normalizeToken_cons, h, ih]

theorem matchesName_characterization (e : Engine) (name q : GoStr) (maxD : Int) :
    matchesName e name q maxD = true ↔
      (goContains (goStrToLower name) q = true ∨
       (normalizeToken q ≠ [] ∧
         goContains (normalizeToken (goStrToLower name)) (normalizeToken q) = true) ∨
       (∃ d, e (normalizeToken q) (normalizeToken (goStrToLower name)) = some d ∧
         0 ≤ d ∧ d ≤ maxD)) := by
  simp only [matchesName, safeRankMatchFold, goToValidUTF8]
  by_cases h1 : goContains (goStrToLower name) q = true
  · simp [h1]
  · cases h3 : e (normalizeToken q) (normalizeToken (goStrToLower name)) with
    | none =>
      simp [h1, h3, List.isEmpty_iff]
    | some d =>
      by_cases h2 : normalizeToken q = []
      · simp [h1, h2, h3]
      · by_cases h4 : goContains (normalizeToken (goStrToLower name)) (normalizeToken q) = true
        · simp [h1, h2, h3, h4, List.isEmpty_iff]
        · simp [h1, h2, h3, h4, List.isEmpty_iff]

theorem matchesText_characterization (e : Engine) (text rq nq : GoStr) (maxD : Int) :
    matchesText e text rq nq maxD = true ↔
      (goContains text rq = true ∨
       (nq ≠ [] ∧ goContains (normalizeToken text) nq = true) ∨
       (nq ≠ [] ∧ ∃ d, e nq (normalizeToken text) = some d ∧ 0 ≤ d ∧ d ≤ maxD)) := by
  simp only [matchesText, safeRankMatchFold, goToValidUTF8]
  by_cases h1 : goContains text rq = true
  · simp [h1]
  · by_cases h2 : nq.isEmpty = true
    · have hnil : nq = [] := List.isEmpty_iff.mp h2
      simp [h1, h2, hnil]
    · have hne : nq ≠ [] := by simpa [List.isEmpty_iff] using h2
      cases h3 : e nq (normalizeToken text) with
      | none => simp [h1, h2, h3, hne, List.isEmpty_iff]
      | some d =>
        by_cases h4 : goContains (normalizeToken text) nq = true
        · simp [h1, h2, h3, h4, hne, List.isEmpty_iff]
        · simp [h1, h2, h3, h4, hne, List.isEmpty_iff]

/-- C4: the approximate tier accepts exactly the non-negative distances within
the length-scaled threshold (1 up to length 3, 2 up to length 6, 3 above, so
monotone non-decreasing), and the length feeding the threshold is the raw
query length in filterRestaurants but the normalized query length in
filterByMenu and filterCombined. -/
theorem fuzz_threshold_length_asymmetry :
    (fuzzThreshold 3 = 1 ∧ fuzzThreshold 4 = 2 ∧ fuzzThreshold 6 = 2 ∧ fuzzThreshold 7 = 3) ∧
    (∀ a b : Nat, a ≤ b → fuzzThreshold a ≤ fuzzThreshold b) ∧
    (∀ (e : Engine) (rs : List Restaurant) (q : GoStr),
      filterRestaurants e rs q = rs.filter (nameOnlyMatch e q)) ∧
    (∀ (e : Engine) (rs : List Restaurant) (q : GoStr),
      filterByMenu e rs q = rs.filter (menuOnlyMatch e q)) ∧
    (∀ (e : Engine) (rs : List Restaurant) (n m : GoStr),
      filterCombined e rs n m = rs.filter (fun r =>
        (if !(goStrToLower (goTrimSpace n)).isEmpty then
          combinedNameMatch e (goTrimSpace n) r else false) ||
        (if !(goStrToLower (goTrimSpace m)).isEmpty then
          combinedMenuMatch e (goTrimSpace m) r else false))) ∧
    (∀ (e : Engine) (name q : GoStr) (maxD : Int),
      matchesName e name q maxD = true ↔
        (goContains (goStrToLower name) q = true ∨
         (normalizeToken q ≠ [] ∧
           goContains (normalizeToken (goStrToLower name)) (normalizeToken q) = true) ∨
         (∃ d, e (normalizeToken q) (normalizeToken (goStrToLower name)) = some d ∧
           0 ≤ d ∧ d ≤ maxD))) ∧
    (∀ (e : Engine) (text rq nq : GoStr) (maxD : Int),
      matchesText e text rq nq maxD = true ↔
        (goContains text rq = true ∨
         (nq ≠ [] ∧ goContains (normalizeToken text) nq = true) ∨
         (nq ≠ [] ∧ ∃ d, e nq (normalizeToken text) = some d ∧ 0 ≤ d ∧ d ≤ maxD))) := by
  refine ⟨⟨rfl, rfl, rfl, rfl⟩, ?_, fun _ _ _ => rfl, fun _ _ _ => rfl,
    fun _ _ _ _ => rfl, matchesName_characterization, matchesText_characterization⟩
  intro a b h
  simp only [fuzzThreshold]
  split_ifs <;> omega

theorem rank_tier_sanitize (e : Engine) (nq nt : GoStr) (maxD : Int) :
    (match safeRankMatchFold e nq nt with
     | (dist, true) => decide (0 ≤ dist ∧ dist ≤ maxD)
     | (_, false) => false) =
    (match safeRankMatchFold (sanitizeEngine e) nq nt with
     | (dist, true) => decide (0 ≤ dist ∧ dist ≤ maxD)
     | (_, false) => false) := by
  simp only [safeRankMatchFold, sanitizeEngine, goToValidUTF8]
  cases h : e nq nt with
  | none => norm_num
  | some d => rfl

theorem matchesName_sanitize (e : Engine) (name q : GoStr) (maxD : Int) :
    matchesName e name q maxD = matchesName (sanitizeEngine e) name q maxD := by
  by_cases h1 : goContains (goStrToLower name) q = true
  · simp [matchesName, h1]
  · by_cases h2 : (!(normalizeToken q).isEmpty &&
      goContains (normalizeToken (goStrToLower name)) (normalizeToken q)) = true
    · simp [matchesName, h1, h2]
    · simp only [matchesName, h1, h2, Bool.false_eq_true, if_false]
      exact rank_tier_sanitize e _ _ maxD

theorem matchesText_sanitize (e : Engine) (text rq nq : GoStr) (maxD : Int) :
    matchesText e text rq nq maxD = matchesText (sanitizeEngine e) text rq nq maxD := by
  by_cases h1 : goContains text rq = true
  · simp [matchesText, h1]
  · by_cases h3 : nq.isEmpty = true
    · simp [matchesText, h1, h3]
    · by_cases h4 : goContains (normalizeToken text) nq = true
      · simp [matchesText, h1, h3, h4]
      · have hb1 : goContains text rq = false := by simpa using h1
        have hb3 : nq.isEmpty = false := by simpa using h3
        have hb4 : goContains (normalizeToken text) nq = false := by simpa using h4
        simp only [matchesText, hb1, hb3, hb4, Bool.not_false, Bool.true_and,
          Bool.false_eq_true, if_false]
        exact rank_tier_sanitize e nq (normalizeToken text) maxD

/-- C3: a faulting approximate-distance comparison (the oracle panicking on a
(query, field) pair) behaves exactly like a comparison returning "no match":
every filter computes the same, total, result with the fault-free sanitized
engine, which never faults, so no fault ever aborts filtering or changes any
other record's inclusion. -/
theorem fault_isolation (e : Engine) :
    (∀ q t, sanitizeEngine e q t ≠ none) ∧
    (∀ q t, e q t = none → safeRankMatchFold e q t = (0, false)) ∧
    (∀ name q maxD, matchesName e name q maxD = matchesName (sanitizeEngine e) name q maxD) ∧
    (∀ text rq nq maxD,
      matchesText e text rq nq maxD = matchesText (sanitizeEngine e) text rq nq maxD) ∧
    (∀ rs q, filterRestaurants e rs q = filterRestaurants (sanitizeEngine e) rs q) ∧
    (∀ rs q, filterByMenu e rs q = filterByMenu (sanitizeEngine e) rs q) ∧
    (∀ rs n m, filterCombined e rs n m = filterCombined (sanitizeEngine e) rs n m) ∧
    (∀ rs n m c, applyFilters e rs n m c = applyFilters (sanitizeEngine e) rs n m c) := by
  have hfr : ∀ rs q, filterRestaurants e rs q = filterRestaurants (sanitizeEngine e) rs q := by
    intro rs q
    simp only [filterRestaurants]
    exact List.filter_congr (fun r _ => matchesName_sanitize e r.Name _ _)
  have hfm : ∀ rs q, filterByMenu e rs q = filterByMenu (sanitizeEngine e) rs q := by
    intro rs q
    simp only [filterByMenu]
    exact List.filter_congr (fun r _ => matchesText_sanitize e _ _ _ _)
  have hfc : ∀ rs n m, filterCombined e rs n m = filterCombined (sanitizeEngine e) rs n m := by
    intro rs n m
    simp only [filterCombined]
    refine List.filter_congr (fun r _ => ?_)
    rw [matchesName_sanitize e r.Name, matchesText_sanitize e]
  refine ⟨?_, ?_, matchesName_sanitize e, matchesText_sanitize e, hfr, hfm, hfc, ?_⟩
  · intro q t
    simp only [sanitizeEngine]
    cases e q t <;> simp
  · intro q t h
    simp [safeRankMatchFold, goToValidUTF8, h]
  · intro rs n m c
    by_cases hc : c = []
    · subst hc
      simp only [applyFilters, ne_eq, not_true_eq_false, if_false, reduceIte]
      by_cases hn : n = [] <;> by_cases hm : m = [] <;> simp [hn, hm, hfr, hfm]
    · simp [applyFilters, hc, hfc]

/-- C2: with no combined query, the supplied per-field filters combine by
logical AND: a record passes exactly when it matches every explicitly supplied
filter among the name and menu queries, and when neither is supplied every
record passes unchanged. -/
theorem separate_query_and (e : Engine) (rs : List Restaurant) (nameQ menuQ : GoStr) :
    applyFilters e rs nameQ menuQ [] =
      rs.filter (fun r =>
        (nameQ.isEmpty || nameOnlyMatch e nameQ r) &&
        (menuQ.isEmpty || menuOnlyMatch e menuQ r)) := by
  by_cases hn : nameQ = [] <;> by_cases hm : menuQ = []
  · simp [applyFilters, hn, hm]
  · simp only [applyFilters, ne_eq, not_true_eq_false, if_false, reduceIte, hn, hm,
      not_false_eq_true, if_true, filterByMenu]
    refine (List.filter_congr (fun r _ => ?_)).symm
    simp [hn, List.isEmpty_iff, hm, menuOnlyMatch]
  · simp only [applyFilters, ne_eq, not_true_eq_false, if_false, reduceIte, hn, hm,
      not_false_eq_true, if_true, filterRestaurants]
    refine (List.filter_congr (fun r _ => ?_)).symm
    simp [hm, List.isEmpty_iff, hn, nameOnlyMatch]
  · simp only [applyFilters, ne_eq, not_true_eq_false, if_false, reduceIte, hn, hm,
      not_false_eq_true, if_true, filterRestaurants, filterByMenu, List.filter_filter]
    refine (List.filter_congr (fun r _ => ?_)).symm
    have hbn : nameQ.isEmpty = false := by simp [List.isEmpty_iff, hn]
    have hbm : menuQ.isEmpty = false := by simp [List.isEmpty_iff, hm]
    simp [hbn, hbm, nameOnlyMatch, menuOnlyMatch, Bool.and_comm]

theorem goStrToLower_ne_nil {q : GoStr} (h : q ≠ []) : (goStrToLower q).isEmpty = false := by
  simp [goStrToLower, List.isEmpty_iff, h]

theorem filterCombined_or (e : Engine) (rs : List Restaurant) (n m : GoStr)
    (hn : goTrimSpace n = n) (hm : goTrimSpace m = m) (hn0 : n ≠ []) (hm0 : m ≠ []) :
    filterCombined e rs n m =
      rs.filter (fun r => combinedNameMatch e n r || combinedMenuMatch e m r) := by
  simp only [filterCombined, hn, hm, goStrToLower_ne_nil hn0, goStrToLower_ne_nil hm0,
    Bool.not_false, if_true, combinedNameMatch, combinedMenuMatch]

/-- C1: with a non-empty combined query, a record is included exactly when its
name matches the effective name query or its menu text (menu lines joined with
single spaces) matches the effective menu query, the effective query on each
side being the explicitly supplied one when non-empty and the combined query
otherwise. -/
theorem combined_query_or (e : Engine) (rs : List Restaurant) (nameQ menuQ combinedQ : GoStr)
    (hc : combinedQ ≠ []) (hn : goTrimSpace nameQ = nameQ) (hm : goTrimSpace menuQ = menuQ)
    (hq : goTrimSpace combinedQ = combinedQ) :
    applyFilters e rs nameQ menuQ combinedQ =
      rs.filter (fun r =>
        combinedNameMatch e (if nameQ = [] then combinedQ else nameQ) r ||
        combinedMenuMatch e (if menuQ = [] then combinedQ else menuQ) r) := by
  have hTn : goTrimSpace (if nameQ = [] then combinedQ else nameQ) =
      (if nameQ = [] then combinedQ else nameQ) := by
    split <;> assumption
  have hTm : goTrimSpace (if menuQ = [] then combinedQ else menuQ) =
      (if menuQ = [] then combinedQ else menuQ) := by
    split <;> assumption
  have hNn : (if nameQ = [] then combinedQ else nameQ) ≠ [] := by
    split <;> simp_all
  have hNm : (if menuQ = [] then combinedQ else menuQ) ≠ [] := by
    split <;> simp_all
  simp only [applyFilters, hc, ne_eq, not_false_eq_true, if_true]
  exact filterCombined_or e rs _ _ hTn hTm hNn hNm

/-- C6 counterexample: the source strips the Swedish label "ADRESS:", so a
field carrying the label "ADDRESS:" keeps that label inside the Address part
instead of having it stripped as the claim states. -/
theorem address_label_counterexample :
    splitAddressAndPhone (gostr ("ADDRESS: Storgatan 1 TEL: 031-123456")) =
      (gostr ("ADDRESS: Storgatan 1"), gostr ("031-123456")) ∧
    (splitAddressAndPhone (gostr ("ADDRESS: Storgatan 1 TEL: 031-123456"))).1 ≠
      gostr ("Storgatan 1") := by
  constructor
  · decide
  · decide

/-- C6 amended: the label stripped is the source's "ADRESS:" (case-sensitive
to that label only); then a case-insensitive "TEL:" search splits the field
into trimmed Address and whitespace-normalized Phone, the whole field becoming
Address when no marker exists; the claim's concrete field extracts as stated. -/
theorem split_address_phone_amended :
    (∀ line, splitAddressAndPhone line = splitAddressAndPhoneSpec line) ∧
    splitAddressAndPhone (gostr ("ADRESS: Storgatan 1 TEL: 031-123456")) =
      (gostr ("Storgatan 1"), gostr ("031-123456")) := by
  constructor
  · intro line
    have h4 : (gostr ("TEL:")).length = 4 := rfl
    simp only [splitAddressAndPhone, splitAddressAndPhoneSpec, h4]
    cases hidx : goIndexOf (goStrToUpper (goTrimSpace (goStripLeading (gostr ("ADRESS:")) line)))
      (gostr ("TEL:")) <;> simp [hidx]
  · decide

theorem parseBlock_name_ne_nil {s : HNode} {r : Restaurant} (h : parseBlock s = some r) :
    r.Name ≠ [] := by
  by_cases hname :
      (goTrimSpace (selectionText ((findUnder selNameLink s).take 1))).isEmpty = true
  · simp [parseBlock, hname] at h
  · have hb : (goTrimSpace (selectionText ((findUnder selNameLink s).take 1))).isEmpty =
        false := by simpa using hname
    simp only [parseBlock, hb, Bool.false_eq_true, if_false, Option.some.injEq] at h
    rw [← h]
    simpa [List.isEmpty_iff] using hb

theorem mem_filterRestaurants {e : Engine} {rs : List Restaurant} {q : GoStr}
    {r : Restaurant} (h : r ∈ filterRestaurants e rs q) : r ∈ rs := by
  simp only [filterRestaurants] at h
  exact (List.mem_filter.mp h).1

theorem mem_filterByMenu {e : Engine} {rs : List Restaurant} {q : GoStr}
    {r : Restaurant} (h : r ∈ filterByMenu e rs q) : r ∈ rs := by
  simp only [filterByMenu] at h
  exact (List.mem_filter.mp h).1

theorem mem_filterCombined {e : Engine} {rs : List Restaurant} {n m : GoStr}
    {r : Restaurant} (h : r ∈ filterCombined e rs n m) : r ∈ rs := by
  simp only [filterCombined] at h
  exact (List.mem_filter.mp h).1

theorem mem_applyFilters {e : Engine} {rs : List Restaurant} {n m c : GoStr}
    {r : Restaurant} (h : r ∈ applyFilters e rs n m c) : r ∈ rs := by
  simp only [applyFilters] at h
  split at h
  · exact mem_filterCombined h
  · split at h
    · split at h
      · exact mem_filterRestaurants (mem_filterByMenu h)
      · exact mem_filterByMenu h
    · split at h
      · exact mem_filterRestaurants h
      · exact h

/-- C8: every extracted record has a non-empty name — a block whose trimmed
name text is empty yields no record at all — and the property persists through
every downstream filter, which only selects among the extracted records. -/
theorem extracted_name_nonempty :
    (∀ doc r, r ∈ parseRestaurants doc → r.Name ≠ []) ∧
    (∀ doc (e : Engine) nq mq cq r,
      r ∈ applyFilters e (parseRestaurants doc) nq mq cq → r.Name ≠ []) := by
  have h1 : ∀ doc r, r ∈ parseRestaurants doc → r.Name ≠ [] := by
    intro doc r hr
    obtain ⟨b, _, hsome⟩ := List.mem_filterMap.mp hr
    exact parseBlock_name_ne_nil hsome
  exact ⟨h1, fun doc e nq mq cq r hr => h1 doc r (mem_applyFilters hr)⟩

/-- Witness for C8 at a concrete document. -/
theorem extracted_name_nonempty_witness : rTesto.Name ≠ [] :=
  extracted_name_nonempty.1 docTest rTesto (by decide)

/-- C9 counterexample: non-markup garbage bytes do not produce a parse
failure — HTML5 parsing is total, so extraction returns an empty record
sequence with no error. -/
theorem garbage_bytes_no_parse_failure :
    parseRestaurantsFromReader (.bytes (gostr ("this is plain garbage, not markup"))) =
      .ok [] := rfl

/-- C9 amended: extraction on an empty well-formed document returns an empty
sequence and no error; markup parsing is total on byte content (HTML5), so
extraction never raises a parse failure for bytes — garbage bytes yield an
empty sequence — and an error is returned exactly when the underlying reader
fails. -/
theorem parse_totality_amended :
    (parseRestaurants HForest.nil = []) ∧
    (parseRestaurantsFromReader (.bytes []) = .ok []) ∧
    (∀ bs, ∃ rs, parseRestaurantsFromReader (.bytes bs) = .ok rs) ∧
    (∀ msg, parseRestaurantsFromReader (.failure msg) = .error msg) :=
  ⟨rfl, rfl, fun bs => ⟨parseRestaurants (textForest bs), rfl⟩, fun _ => rfl⟩

/-- Witness for C1 at a concrete input. -/
theorem combined_query_or_witness :
    applyFilters engineZero [rPizza] [] [] (gostr ("pizza")) =
      List.filter (fun r =>
        combinedNameMatch engineZero
          (if ([] : GoStr) = [] then gostr ("pizza") else []) r ||
        combinedMenuMatch engineZero
          (if ([] : GoStr) = [] then gostr ("pizza") else []) r) [rPizza] :=
  combined_query_or engineZero [rPizza] [] [] (gostr ("pizza"))
    (by decide) rfl rfl (by decide)

/-- Well-formed field lists: each field is non-empty and whitespace-free. -/
def FieldsWF (fs : List GoStr) : Prop :=
  ∀ f ∈ fs, f ≠ [] ∧ ∀ c ∈ f, isSpaceRune c = false

theorem goFieldsAux_wf :
    ∀ (s acc : GoStr), (∀ c ∈ acc, isSpaceRune c = false) →
      FieldsWF (goFieldsAux acc s) := by
  intro s
  induction s with
  | nil =>
    intro acc hacc f hf
    simp only [goFieldsAux] at hf
    split at hf
    · simp at hf
    · next hne =>
      simp only [List.mem_singleton] at hf
      subst hf
      refine ⟨?_, fun c hc => hacc c (List.mem_reverse.mp hc)⟩
      simp only [List.isEmpty_iff] at hne
      simpa using hne
  | cons a s ih =>
    intro acc hacc f hf
    simp only [goFieldsAux] at hf
    split at hf
    · rcases List.mem_append.mp hf with h | h
      · split at h
        · simp at h
        · next hne =>
          simp only [List.mem_singleton] at h
          subst h
          refine ⟨?_, fun c hc => hacc c (List.mem_reverse.mp hc)⟩
          simp only [List.isEmpty_iff] at hne
          simpa using hne
      · exact ih [] (by simp) f h
    · next ha =>
      refine ih (a :: acc) ?_ f hf
      intro c hc
      rcases List.mem_cons.mp hc with rfl | hc
      · simpa using ha
      · exact hacc c hc

theorem goFields_wf (s : GoStr) : FieldsWF (goFields s) :=
  goFieldsAux_wf s [] (by simp)

theorem goJoinSpace_mem {fs : List GoStr} (h : FieldsWF fs) :
    ∀ c ∈ goJoinSpace fs, c = 32 ∨ isSpaceRune c = false := by
  induction fs with
  | nil => simp [goJoinSpace]
  | cons f t ih =>
    cases t with
    | nil =>
      intro c hc
      exact Or.inr ((h f (by simp)).2 c (by simpa [goJoinSpace] using hc))
    | cons g t2 =>
      intro c hc
      simp only [goJoinSpace] at hc
      rcases List.mem_append.mp hc with hcf | hcr
      · exact Or.inr ((h f (by simp)).2 c hcf)
      · rcases List.mem_cons.mp hcr with rfl | hcr
        · exact Or.inl rfl
        · exact ih (fun f2 hf2 => h f2 (List.mem_cons_of_mem f hf2)) c hcr

theorem goJoinSpace_ne_nil {fs : List GoStr} (h : FieldsWF fs) (hne : fs ≠ []) :
    goJoinSpace fs ≠ [] := by
  cases fs with
  | nil => exact absurd rfl hne
  | cons f t =>
    have hf := (h f (by simp)).1
    cases t with
    | nil => simpa [goJoinSpace] using hf
    | cons g t2 =>
      simp only [goJoinSpace, ne_eq, List.append_eq_nil]
      intro hh
      exact hf hh.1

theorem take_one_append {l x : GoStr} (h : l ≠ []) : (l ++ x).take 1 = l.take 1 := by
  cases l with
  | nil => exact absurd rfl h
  | cons a t => simp

theorem goJoinSpace_head {fs : List GoStr} (h : FieldsWF fs) :
    ∀ c ∈ (goJoinSpace fs).take 1, isSpaceRune c = false := by
  cases fs with
  | nil => simp [goJoinSpace]
  | cons f t =>
    have hf := h f (by simp)
    intro c hc
    have hc2 : c ∈ f.take 1 := by
      cases t with
      | nil => simpa [goJoinSpace] using hc
      | cons g t2 =>
        rw [goJoinSpace, show f ++ 32 :: goJoinSpace (g :: t2) =
          f ++ (32 :: goJoinSpace (g :: t2)) from rfl, take_one_append hf.1] at hc
        exact hc
    exact hf.2 c (List.mem_of_mem_take hc2)

theorem goJoinSpace_last {fs : List GoStr} (h : FieldsWF fs) :
    ∀ c ∈ (goJoinSpace fs).reverse.take 1, isSpaceRune c = false := by
  induction fs with
  | nil => simp [goJoinSpace]
  | cons f t ih =>
    cases t with
    | nil =>
      intro c hc
      exact (h f (by simp)).2 c
        (List.mem_reverse.mp (List.mem_of_mem_take (by simpa [goJoinSpace] using hc)))
    | cons g t2 =>
      have hwf2 : FieldsWF (g :: t2) := fun f2 hf2 => h f2 (List.mem_cons_of_mem f hf2)
      have hne2 : goJoinSpace (g :: t2) ≠ [] := goJoinSpace_ne_nil hwf2 (by simp)
      have hrev : (goJoinSpace (g :: t2)).reverse ≠ [] := by simpa using hne2
      intro c hc
      rw [goJoinSpace, show f ++ 32 :: goJoinSpace (g :: t2) =
        f ++ (32 :: goJoinSpace (g :: t2)) from rfl, List.reverse_append,
        List.reverse_cons, List.append_assoc, take_one_append hrev] at hc
      exact ih hwf2 c hc

theorem noTwoSpaces_append {f x : GoStr} (hf : ∀ c ∈ f, isSpaceRune c = false)
    (hx : noTwoSpaces x = true) : noTwoSpaces (f ++ x) = true := by
  induction f with
  | nil => simpa using hx
  | cons c f2 ih =>
    have hc : isSpaceRune c = false := hf c (by simp)
    have hc32 : ¬ c = 32 := by
      intro h32
      subst h32
      simp [isSpaceRune] at hc
    have ih2 : noTwoSpaces (f2 ++ x) = true :=
      ih (fun d hd => hf d (List.mem_cons_of_mem c hd))
    cases hfx : f2 ++ x with
    | nil =>
      show noTwoSpaces (c :: (f2 ++ x)) = true
      rw [hfx]
      rfl
    | cons d t =>
      show noTwoSpaces (c :: (f2 ++ x)) = true
      rw [hfx]
      simp only [noTwoSpaces, Bool.and_eq_true]
      refine ⟨by simp [hc32], by rw [← hfx]; exact ih2⟩

theorem goJoinSpace_noTwoSpaces {fs : List GoStr} (h : FieldsWF fs) :
    noTwoSpaces (goJoinSpace fs) = true := by
  induction fs with
  | nil => simp [goJoinSpace, noTwoSpaces]
  | cons f t ih =>
    cases t with
    | nil =>
      have := (h f (by simp)).2
      have hx : noTwoSpaces ([] : GoStr) = true := rfl
      simpa [goJoinSpace] using noTwoSpaces_append this hx
    | cons g t2 =>
      have hwf2 : FieldsWF (g :: t2) := fun f2 hf2 => h f2 (List.mem_cons_of_mem f hf2)
      have ih2 := ih hwf2
      have hhead := goJoinSpace_head hwf2
      have hne2 : goJoinSpace (g :: t2) ≠ [] := goJoinSpace_ne_nil hwf2 (by simp)
      rw [goJoinSpace]
      refine noTwoSpaces_append (h f (by simp)).2 ?_
      cases hj : goJoinSpace (g :: t2) with
      | nil => exact absurd hj hne2
      | cons b t3 =>
        have hb : isSpaceRune b = false := by
          refine hhead b ?_
          rw [hj]
          simp
        have hb32 : ¬ b = 32 := by
          intro h32
          subst h32
          simp [isSpaceRune] at hb
        simp only [noTwoSpaces, Bool.and_eq_true]
        exact ⟨by simp [hb32], by rw [← hj]; exact ih2⟩

theorem noTwoSpaces_goContains {l : GoStr} (h : noTwoSpaces l = true) :
    goContains l [32, 32] = false := by
  induction l with
  | nil => rfl
  | cons c t ih =>
    cases t with
    | nil => simp [goContains, List.isPrefixOf]
    | cons d t2 =>
      simp only [noTwoSpaces, Bool.and_eq_true] at h
      have htail := ih h.2
      have hcd : ¬ (c = 32 ∧ d = 32) := by
        intro hb
        rw [hb.1, hb.2] at h
        simp at h
      have hpre : [32, 32].isPrefixOf (c :: d :: t2) = false := by
        simp [List.isPrefixOf]
        exact fun h1 h2 => hcd ⟨h1.symm, h2.symm⟩
      show ([32, 32].isPrefixOf (c :: d :: t2) || goContains (d :: t2) [32, 32]) = false
      rw [hpre, htail]
      rfl

theorem replaceNbsp_eq_self {l : GoStr} (h : ∀ c ∈ l, ¬ c = 160) : replaceNbsp l = l := by
  induction l with
  | nil => rfl
  | cons c t ih =>
    have ht := ih (fun d hd => h d (List.mem_cons_of_mem c hd))
    simp only [replaceNbsp, List.map_cons] at ht ⊢
    rw [if_neg (h c (by simp)), ht]

theorem goFieldsAux_through {f : GoStr} (hf : ∀ c ∈ f, isSpaceRune c = false) :
    ∀ (acc rest : GoStr), goFieldsAux acc (f ++ rest) = goFieldsAux (f.reverse ++ acc) rest := by
  induction f with
  | nil => intro acc rest; simp
  | cons c f2 ih =>
    intro acc rest
    have hc : isSpaceRune c = false := hf c (by simp)
    show goFieldsAux acc (c :: (f2 ++ rest)) = _
    simp only [goFieldsAux, hc, Bool.false_eq_true, if_false]
    rw [ih (fun d hd => hf d (List.mem_cons_of_mem c hd)) (c :: acc) rest]
    simp [List.append_assoc]

theorem goFields_goJoinSpace {fs : List GoStr} (h : FieldsWF fs) :
    goFields (goJoinSpace fs) = fs := by
  induction fs with
  | nil => rfl
  | cons f t ih =>
    have hf := h f (by simp)
    cases t with
    | nil =>
      show goFields (goJoinSpace [f]) = [f]
      have h1 : goFieldsAux [] f = goFieldsAux [] (f ++ []) := by simp
      rw [show goJoinSpace [f] = f from rfl, goFields, h1, goFieldsAux_through hf.2 [] []]
      simp [goFieldsAux, List.isEmpty_iff, hf.1]
    | cons g t2 =>
      have hwf2 : FieldsWF (g :: t2) := fun x hx => h x (List.mem_cons_of_mem f hx)
      show goFields (goJoinSpace (f :: g :: t2)) = f :: g :: t2
      rw [show goJoinSpace (f :: g :: t2) = f ++ (32 :: goJoinSpace (g :: t2)) from rfl,
        goFields, goFieldsAux_through hf.2 [] (32 :: goJoinSpace (g :: t2))]
      have h32 : isSpaceRune 32 = true := rfl
      simp only [goFieldsAux, h32, if_true, List.append_nil]
      have hne : (f.reverse).isEmpty = false := by
        simp [List.isEmpty_iff, hf.1]
      rw [hne]
      simp only [Bool.false_eq_true, if_false, List.reverse_reverse]
      have := ih hwf2
      rw [goFields] at this
      rw [this]
      rfl

theorem normalizeSpaces_mem {s : GoStr} :
    ∀ c ∈ normalizeSpaces s, c = 32 ∨ isSpaceRune c = false :=
  goJoinSpace_mem (goFields_wf _)

theorem normalizeSpaces_no_nbsp {s : GoStr} : ∀ c ∈ normalizeSpaces s, ¬ c = 160 := by
  intro c hc
  rcases normalizeSpaces_mem c hc with h32 | hns
  · omega
  · intro h160
    subst h160
    simp [isSpaceRune] at hns

theorem normalizeSpaces_idem (s : GoStr) :
    normalizeSpaces (normalizeSpaces s) = normalizeSpaces s :=
  calc normalizeSpaces (normalizeSpaces s)
      = goJoinSpace (goFields (replaceNbsp (normalizeSpaces s))) := rfl
    _ = goJoinSpace (goFields (normalizeSpaces s)) := by
        rw [replaceNbsp_eq_self normalizeSpaces_no_nbsp]
    _ = goJoinSpace (goFields (replaceNbsp s)) := by
        rw [show normalizeSpaces s = goJoinSpace (goFields (replaceNbsp s)) from rfl,
          goFields_goJoinSpace (goFields_wf _)]
    _ = normalizeSpaces s := rfl

/-- C10: normalizeSpaces is idempotent and its output contains no non-breaking
space, starts and ends with a non-whitespace rune when non-empty, and never
holds two consecutive plain spaces. -/
theorem normalizeSpaces_idempotent_shape (s : GoStr) :
    normalizeSpaces (normalizeSpaces s) = normalizeSpaces s ∧
    (normalizeSpaces s).all (fun c => !(c == 160)) = true ∧
    ((normalizeSpaces s).take 1).all (fun c => !(isSpaceRune c)) = true ∧
    ((normalizeSpaces s).reverse.take 1).all (fun c => !(isSpaceRune c)) = true ∧
    goContains (normalizeSpaces s) (gostr ("  ")) = false := by
  refine ⟨normalizeSpaces_idem s, ?_, ?_, ?_, ?_⟩
  · rw [List.all_eq_true]
    intro c hc
    have := normalizeSpaces_no_nbsp c hc
    simp only [Bool.not_eq_true', beq_eq_false_iff_ne, ne_eq]
    exact this
  · rw [List.all_eq_true]
    intro c hc
    simp only [Bool.not_eq_true']
    exact goJoinSpace_head (goFields_wf _) c hc
  · rw [List.all_eq_true]
    intro c hc
    simp only [Bool.not_eq_true']
    exact goJoinSpace_last (goFields_wf _) c hc
  · rw [show gostr ("  ") = [32, 32] from rfl]
    exact noTwoSpaces_goContains (goJoinSpace_noTwoSpaces (goFields_wf _))

theorem goSplitNL_ne_nil (s : GoStr) : goSplitNL s ≠ [] := by
  cases s with
  | nil => simp [goSplitNL]
  | cons c t =>
    simp only [goSplitNL]
    split
    · simp
    · cases h : goSplitNL t <;> simp

theorem goSplitNL_cons_exists (s : GoStr) : ∃ h t, goSplitNL s = h :: t := by
  cases hs : goSplitNL s with
  | nil => exact absurd hs (goSplitNL_ne_nil s)
  | cons h t => exact ⟨h, t, rfl⟩

theorem normalizeSpaces_cons_space {c : Nat} {s : GoStr} (hc : isSpaceRune c = true) :
    normalizeSpaces (c :: s) = normalizeSpaces s := by
  have hc2 : isSpaceRune (if c = 160 then 32 else c) = true := by
    split
    · rfl
    · exact hc
  simp only [normalizeSpaces, replaceNbsp, List.map_cons, goFields, goFieldsAux, hc2, if_true]
  simp

theorem goFieldsAux_append_space {c : Nat} (hc : isSpaceRune c = true) :
    ∀ (l acc : GoStr), goFieldsAux acc (l ++ [c]) = goFieldsAux acc l := by
  intro l
  induction l with
  | nil =>
    intro acc
    show goFieldsAux acc [c] = goFieldsAux acc []
    simp only [goFieldsAux, hc, if_true]
    simp
  | cons a l ih =>
    intro acc
    show goFieldsAux acc (a :: (l ++ [c])) = goFieldsAux acc (a :: l)
    by_cases ha : isSpaceRune a = true
    · simp only [goFieldsAux, ha, if_true]
      rw [ih []]
    · have ha2 : isSpaceRune a = false := by simpa using ha
      simp only [goFieldsAux, ha2, Bool.false_eq_true, if_false]
      rw [ih (a :: acc)]

theorem normalizeSpaces_append_space {c : Nat} {s : GoStr} (hc : isSpaceRune c = true) :
    normalizeSpaces (s ++ [c]) = normalizeSpaces s := by
  have hc2 : isSpaceRune (if c = 160 then 32 else c) = true := by
    split
    · rfl
    · exact hc
  simp only [normalizeSpaces, replaceNbsp, List.map_append, List.map_cons, List.map_nil,
    goFields]
  rw [goFieldsAux_append_space hc2]

theorem cleanLines_cons_space {c : Nat} {s : GoStr} (hc : isSpaceRune c = true) :
    cleanLines (c :: s) = cleanLines s := by
  by_cases h10 : c = 10
  · subst h10
    obtain ⟨h, t, hsplit⟩ := goSplitNL_cons_exists s
    simp [cleanLines, goSplitNL, hsplit, normalizeSpaces, replaceNbsp, goFields, goFieldsAux,
      goJoinSpace]
  · obtain ⟨h, t, hsplit⟩ := goSplitNL_cons_exists s
    simp only [cleanLines, goSplitNL, h10, if_false, hsplit, List.map_cons, List.filter_cons]
    rw [normalizeSpaces_cons_space hc]

theorem goSplitNL_append_last {c : Nat} (h10 : ¬ c = 10) :
    ∀ s : GoStr, ∃ L last, goSplitNL s = L ++ [last] ∧
      goSplitNL (s ++ [c]) = L ++ [last ++ [c]] := by
  intro s
  induction s with
  | nil =>
    refine ⟨[], [], rfl, ?_⟩
    simp [goSplitNL, h10]
  | cons a s ih =>
    obtain ⟨L, last, h1, h2⟩ := ih
    by_cases ha : a = 10
    · subst ha
      refine ⟨[] :: L, last, ?_, ?_⟩
      · simp [goSplitNL, h1]
      · show goSplitNL (10 :: (s ++ [c])) = _
        simp [goSplitNL, h2]
    · cases L with
      | nil =>
        simp only [List.nil_append] at h1 h2
        refine ⟨[], a :: last, ?_, ?_⟩
        · simp [goSplitNL, ha, h1]
        · show goSplitNL (a :: (s ++ [c])) = _
          simp [goSplitNL, ha, h2]
      | cons l0 L2 =>
        refine ⟨(a :: l0) :: L2, last, ?_, ?_⟩
        · simp [goSplitNL, ha, h1]
        · show goSplitNL (a :: (s ++ [c])) = _
          simp [goSplitNL, ha, h2]

theorem goSplitNL_append_nl : ∀ s : GoStr, goSplitNL (s ++ [10]) = goSplitNL s ++ [[]] := by
  intro s
  induction s with
  | nil => rfl
  | cons a s ih =>
    by_cases ha : a = 10
    · subst ha
      show goSplitNL (10 :: (s ++ [10])) = _
      simp [goSplitNL, ih]
    · show goSplitNL (a :: (s ++ [10])) = _
      obtain ⟨h, t, hs⟩ := goSplitNL_cons_exists s
      simp [goSplitNL, ha, ih, hs]

theorem cleanLines_append_space {c : Nat} {s : GoStr} (hc : isSpaceRune c = true) :
    cleanLines (s ++ [c]) = cleanLines s := by
  by_cases h10 : c = 10
  · subst h10
    simp [cleanLines, goSplitNL_append_nl, List.filter_append, normalizeSpaces, replaceNbsp,
      goFields, goFieldsAux, goJoinSpace]
  · obtain ⟨L, last, h1, h2⟩ := goSplitNL_append_last h10 s
    simp only [cleanLines, h1, h2, List.map_append, List.filter_append, List.map_cons,
      List.map_nil, List.filter_cons, List.filter_nil]
    rw [normalizeSpaces_append_space hc]

theorem cleanLines_dropWhile (s : GoStr) :
    cleanLines (s.dropWhile isSpaceRune) = cleanLines s := by
  induction s with
  | nil => rfl
  | cons c s ih =>
    by_cases hc : isSpaceRune c = true
    · rw [List.dropWhile_cons_of_pos hc, ih, cleanLines_cons_space hc]
    · rw [List.dropWhile_cons_of_neg hc]

theorem cleanLines_dropWhile_reverse :
    ∀ t : GoStr, cleanLines ((t.dropWhile isSpaceRune).reverse) = cleanLines t.reverse := by
  intro t
  induction t with
  | nil => rfl
  | cons c t ih =>
    by_cases hc : isSpaceRune c = true
    · rw [List.dropWhile_cons_of_pos hc, ih, List.reverse_cons, cleanLines_append_space hc]
    · rw [List.dropWhile_cons_of_neg hc]

theorem cleanLines_goTrimSpace (s : GoStr) : cleanLines (goTrimSpace s) = cleanLines s := by
  rw [goTrimSpace, cleanLines_dropWhile_reverse ((s.dropWhile isSpaceRune).reverse),
    List.reverse_reverse, cleanLines_dropWhile]

/-- C7: menu extraction equals the claim's pipeline — render explicit line
breaks as separators while concatenating text and nested elements inline,
split on the separators, whitespace-normalize each line independently, drop
the lines that become empty, keep document order. -/
theorem menu_lines_pipeline (sel : List HNode) :
    extractMenuLines sel = cleanLines (rawTextWithBreaks sel) := by
  by_cases hsel : sel.isEmpty = true
  · have hnil : sel = [] := List.isEmpty_iff.mp hsel
    subst hnil
    rfl
  · have hselF : sel.isEmpty = false := by simpa using hsel
    have htw : textWithBreaks sel = goTrimSpace (rawTextWithBreaks sel) := rfl
    by_cases htext : (textWithBreaks sel).isEmpty = true
    · have h0 : textWithBreaks sel = [] := List.isEmpty_iff.mp htext
      have hclean : cleanLines (rawTextWithBreaks sel) = [] := by
        rw [← cleanLines_goTrimSpace (rawTextWithBreaks sel), ← htw, h0]
        rfl
      simp [extractMenuLines, hselF, htext, hclean]
    · have htextF : (textWithBreaks sel).isEmpty = false := by simpa using htext
      simp only [extractMenuLines, hselF, htextF, Bool.false_eq_true, if_false]
      rw [show ((goSplitNL (textWithBreaks sel)).map normalizeSpaces).filter
        (fun line => !line.isEmpty) = cleanLines (textWithBreaks sel) from rfl, htw,
        cleanLines_goTrimSpace]

end KvCli
